import Mathlib

/-!
# Verification of `pyblp/utilities/statistics.py`

Shallow embedding of the statistics module: robust matrix inversion (`invert`),
iterative fixed-effects demeaning (`iteratively_demean`), IV estimation (`IV`),
and GMM weighting/standard-error computation (`compute_gmm_weights`,
`compute_gmm_se`).

Matrices are total functions `Fin m → Fin n → Val`, where `Val` models an IEEE
double as either an exact rational number (`Val.num`) or NaN (`Val.nan`).
Floating-point rounding and infinities (overflow artifacts) are outside the
model; arithmetic is exact and NaN propagates through `+`, `-`, `*` and
division, as in IEEE-754.
-/

/-- A matrix entry: an exact rational number or NaN. -/
inductive Val where
  | num (q : ℚ)
  | nan
deriving DecidableEq

namespace Val

/-- Addition with NaN propagation. -/
def add : Val → Val → Val
  | num a, num b => num (a + b)
  | _, _ => nan

/-- Multiplication with NaN propagation. -/
def mul : Val → Val → Val
  | num a, num b => num (a * b)
  | _, _ => nan

/-- Subtraction with NaN propagation. -/
def sub : Val → Val → Val
  | num a, num b => num (a - b)
  | _, _ => nan

/-- Division by a natural count (used for group and column means).  A count of
zero models NumPy's mean over an empty slice, which yields NaN. -/
def divNat : Val → ℕ → Val
  | num q, c => if c = 0 then nan else num (q / (c : ℚ))
  | nan, _ => nan

/-- Rational reading of an entry; NaN reads as 0.  Only ever applied to
matrices that have been checked to be NaN-free. -/
def toQ : Val → ℚ
  | num q => q
  | nan => 0

instance : Add Val := ⟨Val.add⟩

instance : Mul Val := ⟨Val.mul⟩

instance : Sub Val := ⟨Val.sub⟩

instance : Zero Val := ⟨Val.num 0⟩

instance : One Val := ⟨Val.num 1⟩

@[simp] theorem num_add (a b : ℚ) : num a + num b = num (a + b) := rfl

@[simp] theorem nan_add (v : Val) : nan + v = nan := by cases v <;> rfl

@[simp] theorem add_nan (v : Val) : v + nan = nan := by cases v <;> rfl

@[simp] theorem num_mul (a b : ℚ) : num a * num b = num (a * b) := rfl

@[simp] theorem nan_mul (v : Val) : nan * v = nan := by cases v <;> rfl

@[simp] theorem mul_nan (v : Val) : v * nan = nan := by cases v <;> rfl

@[simp] theorem num_sub (a b : ℚ) : num a - num b = num (a - b) := rfl

@[simp] theorem nan_sub (v : Val) : nan - v = nan := by cases v <;> rfl

@[simp] theorem sub_nan (v : Val) : v - nan = nan := by cases v <;> rfl

@[simp] theorem zero_def : (0 : Val) = num 0 := rfl

@[simp] theorem one_def : (1 : Val) = num 1 := rfl

@[simp] theorem toQ_num (q : ℚ) : toQ (num q) = q := rfl

instance : AddCommMonoid Val where
  add_assoc a b c := by
    cases a <;> cases b <;> cases c <;> simp [add_assoc]
  zero_add a := by cases a <;> simp
  add_zero a := by cases a <;> simp
  add_comm a b := by cases a <;> cases b <;> simp [add_comm]
  nsmul := nsmulRec

/-- `Val.num` as an additive monoid homomorphism. -/
def numHom : ℚ →+ Val where
  toFun := num
  map_zero' := rfl
  map_add' _ _ := rfl

@[simp] theorem numHom_apply (q : ℚ) : numHom q = num q := rfl

theorem num_finsetSum {ι : Type} (s : Finset ι) (f : ι → ℚ) :
    (∑ i ∈ s, num (f i)) = num (∑ i ∈ s, f i) :=
  (map_sum numHom f s).symm

theorem nsmul_num (c : ℕ) (q : ℚ) : c • Val.num q = Val.num (c * q) := by
  induction c with
  | zero => simp
  | succ d ih =>
    rw [succ_nsmul, ih]
    push_cast
    simp
    ring

end Val

/-- Matrices of the module: dense 2-D double arrays. -/
abbrev Mat (m n : ℕ) : Type := Matrix (Fin m) (Fin n) Val

/-- Entrywise rational value of a matrix (NaN read as 0); used only after a
finiteness check. -/
def toQmat {m n : ℕ} (M : Mat m n) : Matrix (Fin m) (Fin n) ℚ :=
  fun i j => (M i j).toQ

theorem toQmat_map {m n : ℕ} (A : Matrix (Fin m) (Fin n) ℚ) :
    toQmat (A.map Val.num) = A := by
  funext i j
  simp [toQmat, Matrix.map_apply]

theorem mapNum_mul {a b c : ℕ} (A : Matrix (Fin a) (Fin b) ℚ)
    (B : Matrix (Fin b) (Fin c) ℚ) :
    (A.map Val.num) * (B.map Val.num) = (A * B).map Val.num := by
  ext i j
  simp only [Matrix.mul_apply, Matrix.map_apply, Val.num_mul]
  exact Val.num_finsetSum _ _

theorem mapNum_one {n : ℕ} :
    ((1 : Matrix (Fin n) (Fin n) ℚ).map Val.num) = (1 : Mat n n) := by
  ext i j
  by_cases h : i = j <;> simp [Matrix.map_apply, Matrix.one_apply, h]

/-! ## Robust inversion (`invert`)

`scipy.linalg.inv` raises `ValueError` when the input is non-square or, with
the default `check_finite=True`, contains non-finite entries; it raises
`LinAlgError` when the (square, finite) input is singular.  In the exact
model the first tier is the adjugate-based inverse, and the second tier is
the exact Moore-Penrose pseudo-inverse computed from a rank factorization.
`scipy.linalg.pinv` fails only when the SVD iteration does not converge -- a
floating-point phenomenon with no exact-arithmetic counterpart -- so in the
model the second tier always returns and the third (diagonal-only) tier,
translated below as `diagInvert`, is unreachable. -/

/-- Exact inverse of a square rational matrix with nonzero determinant
(`scipy.linalg.inv` on an invertible input). -/
def qInverse {n : ℕ} (S : Matrix (Fin n) (Fin n) ℚ) : Matrix (Fin n) (Fin n) ℚ :=
  (S.det)⁻¹ • S.adjugate

/-- Scale a row by a rational constant. -/
def rowScale (c : ℚ) (row : List ℚ) : List ℚ := row.map (fun x => c * x)

/-- Swap two rows of a list-of-rows matrix. -/
def swapRows (rows : List (List ℚ)) (a b : ℕ) : List (List ℚ) :=
  let ra := rows.getD a []
  let rb := rows.getD b []
  (rows.set a rb).set b ra

/-- Index of the first row at or below `r` with a nonzero entry in column `c`. -/
def pivotIndex (rows : List (List ℚ)) (c r : ℕ) : Option ℕ :=
  (List.range rows.length).find? fun i =>
    decide (r ≤ i) && decide ((rows.getD i []).getD c 0 ≠ 0)

/-- Normalize the pivot row `r` on column `c` and eliminate column `c` from all
other rows (one Gauss-Jordan step). -/
def eliminateCol (rows : List (List ℚ)) (r c : ℕ) : List (List ℚ) :=
  let pr := rows.getD r []
  let pv := pr.getD c 0
  let prn := rowScale pv⁻¹ pr
  (List.range rows.length).map fun i =>
    if i = r then prn
    else
      let ri := rows.getD i []
      let f := ri.getD c 0
      ri.zipWith (fun x y => x - f * y) prn

/-- Gauss-Jordan elimination over the given column indices, returning the
reduced row echelon form together with the list of pivot columns. -/
def rrefAux : List ℕ → ℕ → List (List ℚ) → List ℕ → List (List ℚ) × List ℕ
  | [], _, rows, ps => (rows, ps.reverse)
  | c :: cs, r, rows, ps =>
    match pivotIndex rows c r with
    | none => rrefAux cs r rows ps
    | some i => rrefAux cs (r + 1) (eliminateCol (swapRows rows r i) r c) (c :: ps)

/-- Reduced row echelon form and pivot columns of a list-of-rows matrix. -/
def rref (rows : List (List ℚ)) : List (List ℚ) × List ℕ :=
  rrefAux (List.range ((rows.getD 0 []).length)) 0 rows []

/-- A `Fin`-indexed matrix as a list of rows. -/
def matToList {m n : ℕ} (S : Matrix (Fin m) (Fin n) ℚ) : List (List ℚ) :=
  (List.finRange m).map fun i => (List.finRange n).map fun j => S i j

/-- Exact Moore-Penrose pseudo-inverse of a square rational matrix
(`scipy.linalg.pinv`, which computes the same pseudo-inverse numerically via
SVD least-squares).  From a rank factorization `S = C * F` -- `C` the pivot
columns of `S`, `F` the nonzero rows of the reduced row echelon form -- the
pseudo-inverse is `Fᵀ (F Fᵀ)⁻¹ (Cᵀ C)⁻¹ Cᵀ`. -/
def qPinv {m : ℕ} (S : Matrix (Fin m) (Fin m) ℚ) : Matrix (Fin m) (Fin m) ℚ :=
  let rows := matToList S
  let RP := rref rows
  let ps := RP.2
  let r := ps.length
  let C : Matrix (Fin m) (Fin r) ℚ := fun i j => (rows.getD i []).getD (ps.getD j 0) 0
  let F : Matrix (Fin r) (Fin m) ℚ := fun i j => (RP.1.getD i []).getD j 0
  F.transpose * qInverse (F * F.transpose) * qInverse (C.transpose * C) * C.transpose

/-- Descriptor attached when the Moore-Penrose fallback is used. -/
def pinvDescr : String := "computing the Moore-Penrose pseudo inverse"

/-- Descriptor attached when the diagonal-only fallback is used. -/
def diagDescr : String :=
  "inverting only the variance terms, since the Moore-Penrose pseudo inverse could not be computed"

/-- Third inversion tier, `np.diag(1 / np.diag(matrix))`: invert only the
diagonal.  Unreachable in the exact model (see the section comment), kept as
the translation of the source's final fallback. -/
def diagInvert {n : ℕ} (S : Matrix (Fin n) (Fin n) ℚ) : Matrix (Fin n) (Fin n) ℚ :=
  fun i j => if i = j then (S i i)⁻¹ else 0

/-- Rational view of a square-shaped matrix, transporting the column index
along the shape equation. -/
def toSquare {m n : ℕ} (h : m = n) (M : Mat m n) : Matrix (Fin m) (Fin m) ℚ :=
  fun i j => (M i (Fin.cast h j)).toQ

theorem toSquare_eq {n : ℕ} (h : n = n) (M : Mat n n) : toSquare h M = toQmat M := rfl

/-- `invert(matrix)`: attempt exact inversion; on a structural rejection
(non-square input or non-finite entries, scipy's `ValueError`) return an
all-NaN matrix of the same shape with no descriptor; on singularity
(`LinAlgError`) fall back to the Moore-Penrose pseudo-inverse and tag the
result with a descriptor. -/
def invert {m n : ℕ} (M : Mat m n) : Mat m n × Option String :=
  if h : m = n ∧ ∀ i j, M i j ≠ Val.nan then
    if (toSquare h.1 M).det ≠ 0 then
      ((fun i j => Val.num (qInverse (toSquare h.1 M) i (Fin.cast h.1.symm j))), none)
    else
      ((fun i j => Val.num (qPinv (toSquare h.1 M) i (Fin.cast h.1.symm j))), some pinvDescr)
  else
    ((fun _ _ => Val.nan), none)

/-! ## Error signals

Modelled from the spec: the error classes live in the package's `exceptions`
module, which is outside this file's source; the spec says each kind is
constructible from an optional approximation-descriptor string.  The source
adds an error to the set either directly (the class object itself, for
`AbsorptionConvergenceError`, `InvalidWeightsError`, `InvalidCovariancesError`)
or wrapped in a `lambda` factory that defers construction (the three
inversion errors, parameterized by the descriptor); `ErrEntry` records that
distinction. -/

/-- Modelled from the spec: the kinds of error signal raised by this module. -/
inductive ErrKind where
  | linearParameterCovariancesInversion (descr : String)
  | gmmParameterCovariancesInversion (descr : String)
  | gmmMomentCovariancesInversion (descr : String)
  | absorptionConvergence
  | invalidWeights
  | invalidCovariances
deriving DecidableEq

/-- An entry of an errors set: added directly (`immediate`) or wrapped in a
`lambda` factory (`deferred`). -/
inductive ErrEntry where
  | immediate (k : ErrKind)
  | deferred (k : ErrKind)
deriving DecidableEq

/-! ## Iterative demeaning (`iteratively_demean`) -/

/-- Modelled from the spec: the external iteration driver.  `iterate` takes a
starting matrix and a single-pass transform and returns
`(result_matrix, converged, iteration_count)`; the module inspects only the
first two components (`iteration._iterate(matrix, demean)[:2]`). -/
structure Iteration (n k : ℕ) where
  iterate : Mat n k → (Mat n k → Mat n k) → Mat n k × Bool × ℕ

/-- Rows sharing the grouping id of the given value under the id column. -/
def groupOf {n : ℕ} (idcol : Fin n → ℤ) (g : ℤ) : Finset (Fin n) :=
  Finset.univ.filter fun i => idcol i = g

/-- One demeaning pass for one grouping column.  The source sorts the rows by
id (`argsort`), sums each contiguous sorted segment (`np.add.reduceat` at the
unique-value start indices), divides by the segment counts, and maps each
group's mean back to the original row order through the inverse permutation
(`means[unique_inverse][undo_indices]`) before subtracting; the net effect,
embedded here, is that each row loses the mean of its own id group. -/
def demeanOnce {n k : ℕ} (idcol : Fin n → ℤ) (M : Mat n k) : Mat n k :=
  fun i j =>
    M i j - Val.divNat (∑ i' ∈ groupOf idcol (idcol i), M i' j) (groupOf idcol (idcol i)).card

/-- The contraction mapping `demean`: one pass per grouping column, each pass
updating the running matrix (the source subtracts from `demeaned` in place
inside the loop over `demeaning_info`). -/
def demean {n k c : ℕ} (ids : Matrix (Fin n) (Fin c) ℤ) (M : Mat n k) : Mat n k :=
  (List.finRange c).foldl (fun acc col => demeanOnce (fun i => ids i col) acc) M

/-- `iteratively_demean(matrix, ids, iteration)`: demean once if there is a
single column of ids; otherwise run the iteration driver on `demean` and flag
`AbsorptionConvergenceError` (added directly, not as a factory) when the
driver reports non-convergence. -/
def iteratively_demean {n k c : ℕ} (matrix : Mat n k) (ids : Matrix (Fin n) (Fin c) ℤ)
    (iteration : Iteration n k) : Mat n k × Finset ErrEntry :=
  if c = 1 then (demean ids matrix, (∅ : Finset ErrEntry))
  else
    let r := iteration.iterate matrix (demean ids)
    (r.1, if r.2.1 then ∅ else {ErrEntry.immediate ErrKind.absorptionConvergence})

/-! ## IV estimation (`IV`) -/

/-- Result of `IV.estimate`: the Python method returns either the bare
parameters array or the `(parameters, residuals)` pair. -/
inductive EstimateResult (n k : ℕ) where
  | single (parameters : Mat k 1)
  | pair (parameters : Mat k 1) (residuals : Mat n 1)

/-- State of the `IV` class: inputs, the parameter covariances computed on
construction, and the errors accumulated so far. -/
structure IV (n k l : ℕ) where
  errors : Finset ErrEntry
  X : Mat n k
  Z : Mat n l
  W : Mat l l
  covariances : Mat k k

/-- `IV.__init__`: store the matrices, invert `Xᵀ Z W Zᵀ X` for the parameter
covariances, and record a deferred `LinearParameterCovariancesInversionError`
if an approximation was used. -/
def IV.make {n k l : ℕ} (X : Mat n k) (Z : Mat n l) (W : Mat l l) : IV n k l :=
  let r := invert (X.transpose * Z * W * Z.transpose * X)
  { errors :=
      match r.2 with
      | some d => {ErrEntry.deferred (ErrKind.linearParameterCovariancesInversion d)}
      | none => ∅
    X := X
    Z := Z
    W := W
    covariances := r.1 }

/-- `IV.estimate(y, compute_residuals=True)`: parameters from the stored
covariances, residuals when requested.  A pure function of the state and `y`;
the state is read, never written. -/
def IV.estimate {n k l : ℕ} (iv : IV n k l) (y : Mat n 1)
    (compute_residuals : Bool := true) : EstimateResult n k :=
  let parameters := iv.covariances * iv.X.transpose * iv.Z * iv.W * iv.Z.transpose * y
  if compute_residuals then EstimateResult.pair parameters (y - iv.X * parameters)
  else EstimateResult.single parameters

/-! ## GMM statistics (`compute_gmm_se`, `compute_gmm_weights`) -/

/-- A standard-error entry: the exact square root `√q` of a nonnegative
rational (kept symbolic, since `np.sqrt` is the last operation applied) or
NaN (`np.sqrt` of a negative number or of NaN). -/
inductive SVal where
  | sqrtOf (q : ℚ)
  | snan
deriving DecidableEq

/-- `np.sqrt` on an entry: NaN for negative or NaN input. -/
def sqrtVal : Val → SVal
  | Val.num q => if q < 0 then SVal.snan else SVal.sqrtOf q
  | Val.nan => SVal.snan

/-- `np.diagflat(u) ** 2`: the diagonal matrix of the entries of the column
`u`, squared elementwise (off-diagonal entries are `0 ** 2 = 0`). -/
def diagSq {n : ℕ} (u : Mat n 1) : Mat n n :=
  fun i j => if i = j then u i 0 * u i 0 else Val.num 0

/-- Column mean, `g.mean(axis=0)` at column `j`. -/
def colMean {n l : ℕ} (g : Mat n l) (j : Fin l) : Val :=
  Val.divNat (∑ i, g i j) n

/-- `compute_gmm_se(u, Z, W, jacobian, se_type)`: moment Jacobian
`G = Zᵀ @ jacobian`; invert `Gᵀ W G` and flag a deferred
`GMMParameterCovariancesInversionError` on approximation; invert `Gᵀ W G` a
second time (the source recomputes it, discarding the second approximation);
apply the robust sandwich only when `se_type == 'robust'`; standard errors are
the square root of the covariance diagonal as a column; flag
`InvalidCovariancesError` (added directly) if any standard error is NaN. -/
def compute_gmm_se {n l k : ℕ} (u : Mat n 1) (Z : Mat n l) (W : Mat l l)
    (jacobian : Mat n k) (se_type : String) :
    Matrix (Fin k) (Fin 1) SVal × Finset ErrEntry :=
  let G : Mat l k := Z.transpose * jacobian
  let first := invert (G.transpose * W * G)
  let errors1 : Finset ErrEntry :=
    match first.2 with
    | some d => {ErrEntry.deferred (ErrKind.gmmParameterCovariancesInversion d)}
    | none => ∅
  let second := invert (G.transpose * W * G)
  let covariances : Mat k k :=
    if se_type = "robust" then
      second.1 * G.transpose * W * Z.transpose * diagSq u * Z * W * G * second.1
    else second.1
  let se : Matrix (Fin k) (Fin 1) SVal := fun i _ => sqrtVal (covariances i i)
  (se, errors1 ∪ (if ∃ i j, se i j = SVal.snan
    then {ErrEntry.immediate ErrKind.invalidCovariances} else ∅))

/-- Variant following the spec's proposal for the open question: compute
`invert(G.T @ W @ G)` once and reuse the single result both for the reported
approximation and for the subsequent robust adjustment. -/
def compute_gmm_se_once {n l k : ℕ} (u : Mat n 1) (Z : Mat n l) (W : Mat l l)
    (jacobian : Mat n k) (se_type : String) :
    Matrix (Fin k) (Fin 1) SVal × Finset ErrEntry :=
  let G : Mat l k := Z.transpose * jacobian
  let only := invert (G.transpose * W * G)
  let errors1 : Finset ErrEntry :=
    match only.2 with
    | some d => {ErrEntry.deferred (ErrKind.gmmParameterCovariancesInversion d)}
    | none => ∅
  let covariances : Mat k k :=
    if se_type = "robust" then
      only.1 * G.transpose * W * Z.transpose * diagSq u * Z * W * G * only.1
    else only.1
  let se : Matrix (Fin k) (Fin 1) SVal := fun i _ => sqrtVal (covariances i i)
  (se, errors1 ∪ (if ∃ i j, se i j = SVal.snan
    then {ErrEntry.immediate ErrKind.invalidCovariances} else ∅))

/-- The sample moments `g` of `compute_gmm_weights`: `g = u * Z` (row-wise
product, `u` broadcast across the columns of `Z`), with the column means
subtracted when `center_moments` is set (`g -= g.mean(axis=0)`). -/
def gmmG {n l : ℕ} (u : Mat n 1) (Z : Mat n l) (center_moments : Bool) : Mat n l :=
  let g0 : Mat n l := fun i j => u i 0 * Z i j
  if center_moments then fun i j => g0 i j - colMean g0 j else g0

/-- `compute_gmm_weights(u, Z, center_moments)`: weighting matrix
`invert(gᵀ g)` over the sample moments `g`; flag a deferred
`GMMMomentCovariancesInversionError` on approximation and an immediate
`InvalidWeightsError` if any entry of the result is NaN. -/
def compute_gmm_weights {n l : ℕ} (u : Mat n 1) (Z : Mat n l) (center_moments : Bool) :
    Mat l l × Finset ErrEntry :=
  let g : Mat n l := gmmG u Z center_moments
  let r := invert (g.transpose * g)
  let errors1 : Finset ErrEntry :=
    match r.2 with
    | some d => {ErrEntry.deferred (ErrKind.gmmMomentCovariancesInversion d)}
    | none => ∅
  (r.1, errors1 ∪ (if ∃ i j, r.1 i j = Val.nan
    then {ErrEntry.immediate ErrKind.invalidWeights} else ∅))

theorem invert_eq_exact {n : ℕ} (M : Mat n n) (hfin : ∀ i j, M i j ≠ Val.nan)
    (hdet : (toQmat M).det ≠ 0) :
    invert M = ((qInverse (toQmat M)).map Val.num, none) := by
  unfold invert
  rw [dif_pos (show n = n ∧ ∀ i j, M i j ≠ Val.nan from ⟨rfl, hfin⟩)]
  rw [toSquare_eq, if_pos hdet]
  rfl

theorem invert_eq_pinv {n : ℕ} (M : Mat n n) (hfin : ∀ i j, M i j ≠ Val.nan)
    (hdet : (toQmat M).det = 0) :
    invert M = ((qPinv (toQmat M)).map Val.num, some pinvDescr) := by
  unfold invert
  rw [dif_pos (show n = n ∧ ∀ i j, M i j ≠ Val.nan from ⟨rfl, hfin⟩)]
  rw [toSquare_eq, if_neg (by simpa using hdet)]
  rfl

theorem invert_eq_nan {m n : ℕ} (M : Mat m n)
    (h : ¬ (m = n ∧ ∀ i j, M i j ≠ Val.nan)) :
    invert M = ((fun _ _ => Val.nan), none) := by
  unfold invert
  rw [dif_neg h]

theorem qInverse_mul_self {n : ℕ} (S : Matrix (Fin n) (Fin n) ℚ) (h : S.det ≠ 0) :
    S * qInverse S = 1 := by
  unfold qInverse
  rw [Matrix.mul_smul, Matrix.mul_adjugate, smul_smul, inv_mul_cancel₀ h, one_smul]

/-! ## Claim theorems -/

/-- Claim C1: for every square invertible matrix M, `invert(M)` returns the
exact inverse of M with no approximation descriptor: the first inversion tier
succeeds, and the returned matrix R satisfies `M * R = I`. -/
theorem invert_exact_of_invertible {n : ℕ} (m : Matrix (Fin n) (Fin n) ℚ)
    (hdet : m.det ≠ 0) :
    (invert (m.map Val.num)).2 = none ∧
    (m.map Val.num) * (invert (m.map Val.num)).1 = 1 := by
  have hfin : ∀ i j, (m.map Val.num) i j ≠ Val.nan := by
    intro i j
    simp [Matrix.map_apply]
  have h := invert_eq_exact (m.map Val.num) hfin (by rw [toQmat_map]; exact hdet)
  rw [toQmat_map] at h
  rw [h]
  refine ⟨rfl, ?_⟩
  rw [mapNum_mul, qInverse_mul_self m hdet, mapNum_one]

/-- Concrete 1-by-1 matrix used by witnesses. -/
def m₀ : Matrix (Fin 1) (Fin 1) ℚ := fun _ _ => 2

theorem invert_exact_of_invertible_witness :
    m₀.det ≠ 0 ∧
    ((invert (m₀.map Val.num)).2 = none ∧
      (m₀.map Val.num) * (invert (m₀.map Val.num)).1 = 1) :=
  ⟨by simp [Matrix.det_fin_one, m₀],
    invert_exact_of_invertible m₀ (by simp [Matrix.det_fin_one, m₀])⟩

/-- Claim C2: for every singular square matrix (finite entries, zero
determinant), `invert(M)` returns a result tagged with the pseudo-inverse or
diagonal-only descriptor, never no descriptor.  `invert` is a total function,
so no numerical-linear-algebra failure ever propagates to the caller. -/
theorem invert_singular_descriptor {n : ℕ} (M : Mat n n)
    (hfin : ∀ i j, M i j ≠ Val.nan) (hdet : (toQmat M).det = 0) :
    ((invert M).2 = some pinvDescr ∨ (invert M).2 = some diagDescr) ∧
    (invert M).2 ≠ none := by
  rw [invert_eq_pinv M hfin hdet]
  exact ⟨Or.inl rfl, by simp⟩

/-- Concrete singular 2-by-2 matrix used by witnesses. -/
def M₁ : Mat 2 2 := fun _ _ => Val.num 1

theorem invert_singular_descriptor_witness :
    (∀ i j, M₁ i j ≠ Val.nan) ∧ (toQmat M₁).det = 0 ∧
    (((invert M₁).2 = some pinvDescr ∨ (invert M₁).2 = some diagDescr) ∧
      (invert M₁).2 ≠ none) :=
  ⟨by decide, by simp [Matrix.det_fin_two, toQmat, M₁],
    invert_singular_descriptor M₁ (by decide) (by simp [Matrix.det_fin_two, toQmat, M₁])⟩

/-- Claim C6: with two or more grouping columns, if the iteration driver
reports non-convergence then `iteratively_demean` returns the driver's
(possibly non-converged) matrix -- same shape as the input, by type -- together
with an errors set containing `AbsorptionConvergenceError` added as an
immediate error object (not a deferred factory).  It is a total function, so
it never raises. -/
theorem iteratively_demean_nonconvergence {n k c : ℕ} (matrix : Mat n k)
    (ids : Matrix (Fin n) (Fin c) ℤ) (it : Iteration n k) (hc : c ≠ 1)
    (M' : Mat n k) (t : ℕ)
    (hit : it.iterate matrix (demean ids) = (M', false, t)) :
    iteratively_demean matrix ids it
      = (M', {ErrEntry.immediate ErrKind.absorptionConvergence}) := by
  unfold iteratively_demean
  rw [if_neg hc, hit]
  rfl

/-- Stub driver that immediately reports non-convergence. -/
def itStub : Iteration 1 1 := ⟨fun M _ => (M, false, 0)⟩

/-- Concrete 1-by-1 zero matrix used by witnesses. -/
def zeroMat11 : Mat 1 1 := fun _ _ => Val.num 0

/-- Concrete two-column grouping ids used by witnesses. -/
def zeroIds2 : Matrix (Fin 1) (Fin 2) ℤ := fun _ _ => 0

theorem iteratively_demean_nonconvergence_witness :
    ((2 : ℕ) ≠ 1) ∧
    itStub.iterate zeroMat11 (demean zeroIds2) = (zeroMat11, false, 0) ∧
    iteratively_demean zeroMat11 zeroIds2 itStub
      = (zeroMat11, {ErrEntry.immediate ErrKind.absorptionConvergence}) :=
  ⟨by decide, rfl,
    iteratively_demean_nonconvergence zeroMat11 zeroIds2 itStub (by decide) zeroMat11 0 rfl⟩

/-- Claim C8: on a structurally malformed input (the inversion attempt is
rejected outright: a non-square matrix, or non-finite entries), `invert`
returns a matrix of NaNs of the same shape with no approximation descriptor,
instead of raising or falling back to the pseudo-inverse. -/
theorem invert_malformed_nan {m n : ℕ} (M : Mat m n)
    (h : ¬ (m = n ∧ ∀ i j, M i j ≠ Val.nan)) :
    invert M = ((fun _ _ => Val.nan), none) :=
  invert_eq_nan M h

/-- Concrete non-square matrix used by witnesses. -/
def nonSquareM : Mat 2 3 := fun _ _ => Val.num 1

theorem invert_malformed_nan_witness :
    (¬ ((2 : ℕ) = 3 ∧ ∀ i j, nonSquareM i j ≠ Val.nan)) ∧
    invert nonSquareM = ((fun _ _ => Val.nan), none) :=
  ⟨by decide, invert_malformed_nan nonSquareM (by decide)⟩

/-- Claim C9: the two consecutive `invert(G.T @ W @ G)` computations in
`compute_gmm_se` are calls of a pure function on the same argument, so the
variant that computes the inversion once and reuses the result both for the
reported approximation and for the robust adjustment returns exactly the same
`(se, errors)` on every input. -/
theorem compute_gmm_se_once_refines {n l k : ℕ} (u : Mat n 1) (Z : Mat n l)
    (W : Mat l l) (jacobian : Mat n k) (se_type : String) :
    compute_gmm_se_once u Z W jacobian se_type
      = compute_gmm_se u Z W jacobian se_type := rfl

/-- Claim C10: `estimate(y, compute_residuals=False)` returns the bare
parameters vector (constructor `single`), while
`estimate(y, compute_residuals=True)` returns the `(parameters, residuals)`
pair; the parameters component is identical in both cases. -/
theorem IV_estimate_return_shape {n k l : ℕ} (iv : IV n k l) (y : Mat n 1) :
    iv.estimate y false = EstimateResult.single
        (iv.covariances * iv.X.transpose * iv.Z * iv.W * iv.Z.transpose * y)
    ∧ iv.estimate y true = EstimateResult.pair
        (iv.covariances * iv.X.transpose * iv.Z * iv.W * iv.Z.transpose * y)
        (y - iv.X * (iv.covariances * iv.X.transpose * iv.Z * iv.W * iv.Z.transpose * y)) :=
  ⟨rfl, rfl⟩

/-- Claim C7: with `se_type` other than `'robust'`, `compute_gmm_se` applies
no sandwich correction: the standard errors are the elementwise square root
of the diagonal of `invert(Gᵀ W G)` (with `G = Zᵀ @ jacobian`) shaped as a
column vector, and the residuals `u` play no role in the result. -/
theorem compute_gmm_se_unadjusted {n l k : ℕ} (u : Mat n 1) (Z : Mat n l)
    (W : Mat l l) (jacobian : Mat n k) (se_type : String)
    (hty : se_type ≠ "robust") :
    (compute_gmm_se u Z W jacobian se_type).1
      = (fun i _ => sqrtVal ((invert ((Z.transpose * jacobian).transpose * W
          * (Z.transpose * jacobian))).1 i i))
    ∧ ∀ u' : Mat n 1,
        compute_gmm_se u Z W jacobian se_type
          = compute_gmm_se u' Z W jacobian se_type := by
  constructor
  · simp only [compute_gmm_se, if_neg hty]
  · intro u'
    simp only [compute_gmm_se, if_neg hty]

/-- Concrete 1-by-1 matrices used by witnesses. -/
def onesM : Mat 1 1 := fun _ _ => Val.num 1

/-- Concrete residual column used by witnesses. -/
def u₁ : Mat 1 1 := fun _ _ => Val.num 5

theorem compute_gmm_se_unadjusted_witness :
    ("unadjusted" ≠ "robust") ∧
    ((compute_gmm_se u₁ onesM onesM onesM "unadjusted").1
      = (fun i _ => sqrtVal ((invert ((onesM.transpose * onesM).transpose * onesM
          * (onesM.transpose * onesM))).1 i i))
    ∧ ∀ u' : Mat 1 1,
        compute_gmm_se u₁ onesM onesM onesM "unadjusted"
          = compute_gmm_se u' onesM onesM onesM "unadjusted") :=
  ⟨by decide, compute_gmm_se_unadjusted u₁ onesM onesM onesM "unadjusted" (by decide)⟩

/-- Concrete column of ones used by the C4 scenario. -/
def X₀ : Mat 3 1 := fun _ _ => Val.num 1

/-- Concrete 1-by-1 identity weighting used by the C4 scenario. -/
def W₀ : Mat 1 1 := fun _ _ => Val.num 1

/-- Concrete outcome column used by the C4 scenario. -/
def y₀ : Mat 3 1 := fun _ _ => Val.num 2

/-- Claim C4: `IV.estimate(y)` returns parameters
`covariances @ Xᵀ @ Z @ W @ Zᵀ @ y` and residuals `y - X @ parameters`;
`estimate` is a pure function of the stored state and `y`, so the stored
covariances are never mutated.  In particular, for
`X = Z = [[1],[1],[1]]`, `W = [[1]]`, `y = [[2],[2],[2]]` it returns
parameters `[[2]]` and residuals `[[0],[0],[0]]`. -/
theorem IV_estimate_correct {n k l : ℕ} (X : Mat n k) (Z : Mat n l)
    (W : Mat l l) (y : Mat n 1) :
    ((IV.make X Z W).estimate y = EstimateResult.pair
        ((IV.make X Z W).covariances * X.transpose * Z * W * Z.transpose * y)
        (y - X * ((IV.make X Z W).covariances * X.transpose * Z * W * Z.transpose * y)))
    ∧ (IV.make X₀ X₀ W₀).estimate y₀
        = EstimateResult.pair (fun _ _ => Val.num 2) (fun _ _ => Val.num 0) := by
  refine ⟨rfl, ?_⟩
  have hP : X₀.transpose * X₀ * W₀ * X₀.transpose * X₀
      = (fun _ _ => Val.num 9 : Mat 1 1) := by
    funext i j
    simp [Matrix.mul_apply, Matrix.transpose_apply, X₀, W₀, Fin.sum_univ_succ,
      Val.nsmul_num]
    norm_num
  have hfin : ∀ i j, (fun _ _ => Val.num 9 : Mat 1 1) i j ≠ Val.nan := by decide
  have hdet : (toQmat (fun _ _ => Val.num 9 : Mat 1 1)).det ≠ 0 := by
    rw [Matrix.det_fin_one]
    decide
  have hq : qInverse (toQmat (fun _ _ => Val.num 9 : Mat 1 1))
      = fun _ _ => ((9 : ℚ)⁻¹) := by
    funext i j
    rw [qInverse, Matrix.adjugate_fin_one, Matrix.det_fin_one]
    simp [toQmat, Matrix.one_apply, Subsingleton.elim i j]
  have hcov : (IV.make X₀ X₀ W₀).covariances
      = fun _ _ => Val.num ((9 : ℚ)⁻¹) := by
    show (invert (X₀.transpose * X₀ * W₀ * X₀.transpose * X₀)).1 = _
    rw [hP, invert_eq_exact _ hfin hdet, hq]
    rfl
  show EstimateResult.pair
      ((IV.make X₀ X₀ W₀).covariances * X₀.transpose * X₀ * W₀ * X₀.transpose * y₀)
      (y₀ - X₀ * ((IV.make X₀ X₀ W₀).covariances * X₀.transpose * X₀ * W₀ * X₀.transpose * y₀))
    = EstimateResult.pair (fun _ _ => Val.num 2) (fun _ _ => Val.num 0)
  rw [hcov]
  congr 1
  · funext i j
    simp [Matrix.mul_apply, Matrix.transpose_apply, X₀, W₀, y₀, Fin.sum_univ_succ,
      Val.nsmul_num]
    norm_num
  · funext i j
    simp [Matrix.sub_apply, Matrix.mul_apply, Matrix.transpose_apply, X₀, W₀, y₀,
      Fin.sum_univ_succ, Val.nsmul_num]
    norm_num

/-- Claim C5: `compute_gmm_weights` forms `g = u * Z` (row-wise product),
centers it exactly when `center_moments` is set, and returns
`W = invert(gᵀ g)`; when `gᵀ g` is invertible the errors set is empty; a
`GMMMomentCovariancesInversionError` (deferred factory) is present exactly
when `invert` reports an approximation; an `InvalidWeightsError` (immediate)
is present exactly when some entry of W is NaN. -/
theorem compute_gmm_weights_spec {n l : ℕ} (u : Mat n 1) (Z : Mat n l) (cm : Bool) :
    ((compute_gmm_weights u Z cm).1
        = (invert ((gmmG u Z cm).transpose * gmmG u Z cm)).1)
    ∧ ((∀ i j, ((gmmG u Z cm).transpose * gmmG u Z cm) i j ≠ Val.nan) →
        (toQmat ((gmmG u Z cm).transpose * gmmG u Z cm)).det ≠ 0 →
        (compute_gmm_weights u Z cm).2 = ∅)
    ∧ (∀ d, ErrEntry.deferred (ErrKind.gmmMomentCovariancesInversion d)
          ∈ (compute_gmm_weights u Z cm).2
        ↔ (invert ((gmmG u Z cm).transpose * gmmG u Z cm)).2 = some d)
    ∧ (ErrEntry.immediate ErrKind.invalidWeights ∈ (compute_gmm_weights u Z cm).2
        ↔ ∃ i j, (compute_gmm_weights u Z cm).1 i j = Val.nan) := by
  have hE1 : (compute_gmm_weights u Z cm).1
      = (invert ((gmmG u Z cm).transpose * gmmG u Z cm)).1 := rfl
  have hE : (compute_gmm_weights u Z cm).2
      = (match (invert ((gmmG u Z cm).transpose * gmmG u Z cm)).2 with
          | some d => {ErrEntry.deferred (ErrKind.gmmMomentCovariancesInversion d)}
          | none => (∅ : Finset ErrEntry))
        ∪ (if ∃ i j, (invert ((gmmG u Z cm).transpose * gmmG u Z cm)).1 i j = Val.nan
            then {ErrEntry.immediate ErrKind.invalidWeights} else ∅) := rfl
  refine ⟨rfl, ?_, ?_, ?_⟩
  · intro hfin hdet
    rw [hE, invert_eq_exact _ hfin hdet]
    simp [Matrix.map_apply]
  · intro d
    rw [hE]
    cases h2 : (invert ((gmmG u Z cm).transpose * gmmG u Z cm)).2 <;>
      split_ifs <;> simp [Finset.mem_union, eq_comm]
  · rw [hE, hE1]
    cases h2 : (invert ((gmmG u Z cm).transpose * gmmG u Z cm)).2 <;>
      split_ifs with hnan <;> simp [Finset.mem_union, hnan]

/-- Concrete 1-by-1 instrument column used by witnesses. -/
def twosM : Mat 1 1 := fun _ _ => Val.num 2

theorem compute_gmm_weights_spec_witness :
    (∀ i j, ((gmmG onesM twosM false).transpose * gmmG onesM twosM false) i j ≠ Val.nan)
    ∧ (toQmat ((gmmG onesM twosM false).transpose * gmmG onesM twosM false)).det ≠ 0
    ∧ (compute_gmm_weights onesM twosM false).2 = ∅ :=
  ⟨by decide,
    by
      rw [Matrix.det_fin_one]
      simp [toQmat, gmmG, Matrix.mul_apply, Matrix.transpose_apply, onesM, twosM],
    (compute_gmm_weights_spec onesM twosM false).2.1 (by decide)
      (by
        rw [Matrix.det_fin_one]
        simp [toQmat, gmmG, Matrix.mul_apply, Matrix.transpose_apply, onesM, twosM])⟩

/-- Claim C3: with exactly one grouping column, `iteratively_demean` applies
the single-pass demeaning transform exactly once and returns immediately with
an empty errors set -- the result is the same for every iteration driver, so
the driver is never consulted -- and in the returned matrix the mean of each
column within each group defined by the grouping column is exactly 0. -/
theorem iteratively_demean_one_column {n k : ℕ} (m : Matrix (Fin n) (Fin k) ℚ)
    (ids : Matrix (Fin n) (Fin 1) ℤ) (it : Iteration n k) :
    iteratively_demean (m.map Val.num) ids it
      = (demeanOnce (fun i => ids i 0) (m.map Val.num), (∅ : Finset ErrEntry))
    ∧ ∀ (j : Fin k) (i₀ : Fin n),
        Val.divNat
          (∑ i ∈ groupOf (fun i' => ids i' 0) (ids i₀ 0),
            (iteratively_demean (m.map Val.num) ids it).1 i j)
          (groupOf (fun i' => ids i' 0) (ids i₀ 0)).card = Val.num 0 := by
  have hres : iteratively_demean (m.map Val.num) ids it
      = (demeanOnce (fun i => ids i 0) (m.map Val.num), (∅ : Finset ErrEntry)) := rfl
  refine ⟨hres, ?_⟩
  intro j i₀
  rw [hres]
  dsimp only
  have hmem : i₀ ∈ groupOf (fun i' => ids i' 0) (ids i₀ 0) := by
    simp [groupOf]
  have hcard : (groupOf (fun i' => ids i' 0) (ids i₀ 0)).card ≠ 0 :=
    Finset.card_ne_zero_of_mem hmem
  have hcardQ : (((groupOf (fun i' => ids i' 0) (ids i₀ 0)).card : ℕ) : ℚ) ≠ 0 := by
    exact_mod_cast hcard
  have hterm : ∀ i ∈ groupOf (fun i' => ids i' 0) (ids i₀ 0),
      demeanOnce (fun i' => ids i' 0) (m.map Val.num) i j
        = Val.num (m i j - (∑ i' ∈ groupOf (fun i' => ids i' 0) (ids i₀ 0), m i' j)
            / (((groupOf (fun i' => ids i' 0) (ids i₀ 0)).card : ℕ) : ℚ)) := by
    intro i hi
    have hgi : ids i 0 = ids i₀ 0 := by
      simpa [groupOf] using hi
    show (m.map Val.num) i j
        - Val.divNat (∑ i' ∈ groupOf (fun i' => ids i' 0) (ids i 0), (m.map Val.num) i' j)
            (groupOf (fun i' => ids i' 0) (ids i 0)).card
      = _
    rw [hgi]
    simp only [Matrix.map_apply]
    rw [Val.num_finsetSum]
    simp only [Val.divNat, if_neg hcard, Val.num_sub]
  rw [Finset.sum_congr rfl hterm, Val.num_finsetSum]
  rw [Finset.sum_sub_distrib, Finset.sum_const, nsmul_eq_mul]
  rw [← mul_div_assoc, mul_div_cancel_left₀ _ hcardQ]
  simp [Val.divNat, hcard]
